import Mathlib

/-!
A shallow embedding of the core of the `jirehs-flashcards` repository,
together with proofs that settle the specification claims C1..C10.

Conventions of the embedding:
* Rust `&str` / `String` values are modelled as `List Char`.
  `String::len` (a byte count in Rust) is modelled by `byteLen`,
  the sum of the UTF-8 sizes of the characters.
* Rust `f64` arithmetic is modelled exactly: by `ℚ` where the code only
  uses `+ - * max min` on decimal constants (SM-2), and by `ℝ` where the
  code uses `exp`/`powf` (FSRS).  NaN propagation is out of scope.
* `i64`/`u32`/`usize` are modelled as `ℤ`/`ℕ` with explicit range checks
  where the code can overflow (`str::parse::<i64>`).
* Timestamps (`DateTime<Utc>`) are modelled as `ℤ` (seconds); calendar
  dates (`NaiveDate`) as `ℤ` (day numbers, `≤` agreeing with date order).
* Fallible Rust functions returning `Result` are modelled with `Except`.
-/

/-! ## Shared string helpers (Rust `str` methods) -/

/-- Rust `char::is_whitespace`; agrees with it on ASCII, which is all the
claims exercise (Lean's `Char.isWhitespace` covers space, tab, CR, LF). -/
def rustIsWhitespace (c : Char) : Bool := c.isWhitespace

/-- Rust `str::trim`: remove leading and trailing whitespace. -/
def rustTrim (s : List Char) : List Char :=
  ((s.dropWhile rustIsWhitespace).reverse.dropWhile rustIsWhitespace).reverse

/-- Split a text into lines, each chunk KEEPING its trailing `'\n'`
(the last chunk has none iff the text does not end in a newline).
The concatenation of the chunks is exactly the input text. -/
def linesKeepEnds : List Char → List (List Char)
  | [] => []
  | c :: rest =>
    if c = '\n' then ['\n'] :: linesKeepEnds rest
    else
      match linesKeepEnds rest with
      | [] => [[c]]
      | l :: ls => (c :: l) :: ls

/-- Drop one trailing `'\n'` from a chunk, if present. -/
def stripNL : List Char → List Char
  | [] => []
  | [c] => if c = '\n' then [] else [c]
  | c :: rest => c :: stripNL rest

/-- Drop one trailing `'\r'` from a chunk, if present. -/
def stripCR : List Char → List Char
  | [] => []
  | [c] => if c = '\r' then [] else [c]
  | c :: rest => c :: stripCR rest

/-- Rust `str::lines()`: split at `\n` or `\r\n`; the final line ending is
optional; a `\r` immediately preceding a split `\n` is removed. -/
def rustLines (s : List Char) : List (List Char) :=
  (linesKeepEnds s).map (fun l => stripCR (stripNL l))

/-- Check whether `p` is a prefix of `s` (Rust `str::starts_with`). -/
def isPre (p s : List Char) : Bool := p.isPrefixOf s

/-- Rust `str::strip_prefix` composed with the subsequent use in the code:
drop the first `n` characters. -/
def dropPre (n : ℕ) (s : List Char) : List Char := s.drop n

/-- Rust `str::parse::<i64>`: optional sign, one or more ASCII digits,
rejecting anything else and values outside the `i64` range. -/
def parseI64 (s : List Char) : Option ℤ :=
  let (sign, digits) :=
    match s with
    | '+' :: rest => ((1 : ℤ), rest)
    | '-' :: rest => ((-1 : ℤ), rest)
    | _ => ((1 : ℤ), s)
  if digits.isEmpty then none
  else if ¬ digits.all Char.isDigit then none
  else
    let n : ℕ := digits.foldl (fun acc c => acc * 10 + (c.toNat - 48)) 0
    let v : ℤ := sign * (n : ℤ)
    if v < -(2 ^ 63) ∨ 2 ^ 63 - 1 < v then none else some v

/-- Render an integer in decimal (Rust `format!` of an `i64`). -/
def reprI64 (n : ℤ) : List Char := (toString n).toList

/-- `List.intercalate ['\n']`: Rust `Vec::join("\n")`. -/
def joinNL (ls : List (List Char)) : List Char := List.intercalate ['\n'] ls

/-- Last-wins association lookup: the result of collecting an iterator of
key/value pairs into a Rust `HashMap` and then looking a key up. -/
def lookupLast (ps : List (ℕ × ℤ)) (k : ℕ) : Option ℤ :=
  ps.foldl (fun acc p => if p.1 = k then some p.2 else acc) none

/-- Does the text end with `'\n'` (Rust `str::ends_with('\n')`)? -/
def endsNL : List Char → Bool
  | [] => false
  | [c] => c = '\n'
  | _ :: rest => endsNL rest

/-! ## Domain types (`libs/flashcard-core/src/types.rs`) -/

/-- Card learning status. -/
inductive CardStatus where
  | new
  | learning
  | review
  | relearning
  deriving DecidableEq, Repr

/-- Rating for a review. -/
inductive Rating where
  | again
  | hard
  | good
  | easy
  deriving DecidableEq, Repr

/-- `Rating::to_value`: the 4-point numeric value (1-4). -/
def Rating.toValue : Rating → ℕ
  | .again => 1
  | .hard => 2
  | .good => 3
  | .easy => 4

/-- Card learning state (`CardState`), parametrised by the number type used
to model `f64` (`ℚ` for SM-2, `ℝ` for FSRS). `due_date` is a timestamp in
seconds. -/
structure CardState (α : Type) where
  status : CardStatus
  interval_days : α
  ease_factor : α
  stability : Option α
  difficulty : Option α
  lapses : ℕ
  reviews_count : ℕ
  due_date : Option ℤ
  deriving DecidableEq, Repr

/-- Result of scheduling a card after review (`SchedulingResult`). -/
structure SchedulingResult (α : Type) where
  new_state : CardState α
  next_due : ℤ
  deriving DecidableEq, Repr

/-- Raw card parsed from markdown (`RawCard`). -/
structure RawCard where
  id : Option ℤ
  question : List Char
  answer : List Char
  line_number : ℕ
  deriving DecidableEq, Repr

/-- Errors of the core markdown parser (`error.rs::ParseError`). -/
inductive ParseError where
  | missingQuestion (line : ℕ)
  | missingAnswer (line : ℕ)
  | invalidId (line : ℕ) (value : List Char)
  | duplicateId (id : ℤ) (line : ℕ)
  | emptyFile
  deriving DecidableEq, Repr

/-! ## Core markdown parser (`libs/flashcard-core/src/parser.rs`) -/

namespace Core

/-- `parser.rs` `Field`. -/
inductive Field where
  | question
  | answer
  deriving DecidableEq, Repr

/-- `parser.rs` `LineType`. -/
inductive LineType where
  | id (rest : List Char)
  | question (rest : List Char)
  | answer (rest : List Char)
  | text (line : List Char)
  | empty
  deriving DecidableEq, Repr

/-- `parser.rs` `CardBuilder`. -/
structure CardBuilder where
  id : Option ℤ
  question : Option (List Char)
  answer : Option (List Char)
  start_line : ℕ
  deriving DecidableEq, Repr

/-- `CardBuilder::new`. -/
def CardBuilder.new (start_line : ℕ) : CardBuilder :=
  { id := none, question := none, answer := none, start_line := start_line }

/-- `CardBuilder::build`: a card needs both a question and an answer;
both are trimmed. -/
def CardBuilder.build (b : CardBuilder) : Except ParseError RawCard :=
  match b.question with
  | none => .error (.missingQuestion b.start_line)
  | some q =>
    match b.answer with
    | none => .error (.missingAnswer b.start_line)
    | some a =>
      .ok { id := b.id, question := rustTrim q, answer := rustTrim a,
            line_number := b.start_line }

/-- `parser.rs` `Parser` (the in-progress parse state). -/
structure ParserSt where
  current : Option CardBuilder
  current_field : Option Field
  buffer : List (List Char)
  deriving DecidableEq, Repr

/-- `Parser::new`. -/
def ParserSt.new : ParserSt :=
  { current := none, current_field := none, buffer := [] }

/-- `Parser::parse_line`: classify one line. -/
def parse_line (line : List Char) : LineType :=
  let trimmed := rustTrim line
  if isPre ("ID:".toList) trimmed then .id (rustTrim (dropPre 3 trimmed))
  else if isPre ("Q:".toList) trimmed then .question (rustTrim (dropPre 2 trimmed))
  else if isPre ("A:".toList) trimmed then .answer (rustTrim (dropPre 2 trimmed))
  else if trimmed.isEmpty then .empty
  else .text line

/-- `Parser::flush_buffer`: move the buffered continuation lines into the
current field of the current card, if any. -/
def flush_buffer (st : ParserSt) : ParserSt :=
  if st.buffer.isEmpty then st
  else
    let content := joinNL st.buffer
    let st' := { st with buffer := [] }
    match st'.current with
    | none => st'
    | some card =>
      match st'.current_field with
      | some .question => { st' with current := some { card with question := some content } }
      | some .answer => { st' with current := some { card with answer := some content } }
      | none => st'

/-- `Parser::handle_id`. Note: when a card is already in progress this only
overwrites its `id`; it does NOT emit the card in progress. -/
def handle_id (st : ParserSt) (idStr : List Char) (lineNum : ℕ) :
    Except ParseError ParserSt :=
  let st := flush_buffer st
  match parseI64 idStr with
  | none => .error (.invalidId lineNum idStr)
  | some id =>
    let st :=
      match st.current with
      | none => { st with current := some (CardBuilder.new lineNum) }
      | some _ => st
    let st :=
      match st.current with
      | none => st
      | some card => { st with current := some { card with id := some id } }
    .ok { st with current_field := none }

/-- `Parser::handle_question`. Note: it only starts a new card when none is
in progress. -/
def handle_question (st : ParserSt) (text : List Char) (lineNum : ℕ) : ParserSt :=
  let st := flush_buffer st
  let st :=
    match st.current with
    | none => { st with current := some (CardBuilder.new lineNum) }
    | some _ => st
  { st with current_field := some .question, buffer := st.buffer ++ [text] }

/-- `Parser::handle_answer`. -/
def handle_answer (st : ParserSt) (text : List Char) : ParserSt :=
  let st := flush_buffer st
  { st with current_field := some .answer, buffer := st.buffer ++ [text] }

/-- `Parser::process_line`. -/
def process_line (st : ParserSt) (line : List Char) (lineNum : ℕ) :
    Except ParseError ParserSt :=
  match parse_line line with
  | .id idStr => handle_id st idStr lineNum
  | .question text => .ok (handle_question st text lineNum)
  | .answer text => .ok (handle_answer st text)
  | .text text => .ok { st with buffer := st.buffer ++ [text] }
  | .empty => .ok { st with buffer := st.buffer ++ [[]] }

/-- `Parser::finalize`: flush, build the (single) current card if any, and
check its id against `seen_ids`. -/
def finalize (st : ParserSt) (cards : List RawCard) (seenIds : List ℤ) :
    Except ParseError (List RawCard) :=
  let st := flush_buffer st
  match st.current with
  | none => .ok cards
  | some card => do
    let rawCard ← card.build
    match rawCard.id with
    | some id =>
      if id ∈ seenIds then .error (.duplicateId id rawCard.line_number)
      else .ok (cards ++ [rawCard])
    | none => .ok (cards ++ [rawCard])

/-- `parser.rs` `parse`: parse markdown content into raw cards. -/
def parse (content : List Char) : Except ParseError (List RawCard) :=
  if (rustTrim content).isEmpty then .ok []
  else do
    let st ← (rustLines content).enum.foldlM
      (fun st p => process_line st p.2 (p.1 + 1)) ParserSt.new
    finalize st [] []

/-- `parser.rs` `inject_ids`: insert an `ID: <id>` line before each assigned
line number, then join the lines with `'\n'`. -/
def inject_ids (content : List Char) (idAssignments : List (ℕ × ℤ)) : List Char :=
  if idAssignments.isEmpty then content
  else
    joinNL ((rustLines content).enum.flatMap fun p =>
      match lookupLast idAssignments (p.1 + 1) with
      | some id => [("ID: ".toList) ++ reprI64 id, p.2]
      | none => [p.2])

end Core

/-! ## Backend markdown parser (`apps/backend/src/services/sync.rs`) -/

namespace Backend

/-- Backend API errors (`error.rs::ApiError`), restricted to the variant the
sync service produces. -/
inductive ApiError where
  | parse (msg : List Char)
  deriving DecidableEq, Repr

/-- Parsed card from MD content (`ParsedCard`). -/
structure ParsedCard where
  id : Option ℤ
  question : List Char
  answer : List Char
  line : ℕ
  deriving DecidableEq, Repr

/-- `sync.rs` `Field`. -/
inductive Field where
  | question
  | answer
  deriving DecidableEq, Repr

/-- `sync.rs` `ParsedCardBuilder`. -/
structure ParsedCardBuilder where
  id : Option ℤ
  question : Option (List Char)
  answer : Option (List Char)
  line : ℕ
  deriving DecidableEq, Repr

/-- `sync.rs` `flush_current_field`: write the trimmed buffer into the
builder's current field, unless the trimmed buffer is empty. -/
def flush_current_field (field : Option Field) (buffer : List Char)
    (b : ParsedCardBuilder) : ParsedCardBuilder :=
  let content := rustTrim buffer
  if content.isEmpty then b
  else
    match field with
    | some .question => { b with question := some content }
    | some .answer => { b with answer := some content }
    | none => b

/-- `sync.rs` `flush_field`: flush the buffer into the builder, emit the card
only if it has both Q and A, reset the field and buffer.  The Rust function
returns `Result` but has no error path. -/
def flush_field (field : Option Field) (buffer : List Char)
    (cards : List ParsedCard) (b : ParsedCardBuilder) :
    List ParsedCard × Option Field × List Char :=
  let b := flush_current_field field buffer b
  let cards :=
    match b.question, b.answer with
    | some q, some a => cards ++ [{ id := b.id, question := q, answer := a, line := b.line }]
    | _, _ => cards
  (cards, none, [])

/-- The running state of the `parse_md_content` loop. -/
structure LoopSt where
  cards : List ParsedCard
  current : Option ParsedCardBuilder
  current_field : Option Field
  field_buffer : List Char
  deriving DecidableEq, Repr

/-- One iteration of the `parse_md_content` line loop. -/
def md_step (st : LoopSt) (line : List Char) (lineNum : ℕ) :
    Except ApiError LoopSt :=
  let trimmed := rustTrim line
  if isPre ("ID:".toList) trimmed then
    -- an `ID:` line starts a new card: flush the previous one
    let (cards, field, buffer) :=
      match st.current with
      | some b => flush_field st.current_field st.field_buffer st.cards b
      | none => (st.cards, st.current_field, st.field_buffer)
    let idStr := rustTrim (dropPre 3 trimmed)
    let idv : Except ApiError (Option ℤ) :=
      if idStr.isEmpty then .ok none
      else
        match parseI64 idStr with
        | some id => .ok (some id)
        | none =>
          .error (.parse (("Invalid ID \x27".toList) ++ idStr ++
            ("\x27 at line ".toList) ++ (toString lineNum).toList))
    match idv with
    | .error e => .error e
    | .ok id =>
      let _ := (field, buffer)
      .ok { cards := cards,
            current := some { id := id, question := none, answer := none, line := lineNum },
            current_field := none, field_buffer := [] }
  else if isPre ("Q:".toList) trimmed then
    let st :=
      match st.current with
      | none =>
        let fresh : ParsedCardBuilder :=
          { id := none, question := none, answer := none, line := lineNum }
        { st with current := some fresh }
      | some _ => st
    let st :=
      match st.current with
      | some b =>
        let b := flush_current_field st.current_field st.field_buffer b
        { st with current := some b }
      | none => st
    .ok { st with current_field := some .question,
                  field_buffer := rustTrim (dropPre 2 trimmed) }
  else if isPre ("A:".toList) trimmed then
    let st :=
      match st.current with
      | some b =>
        let b := flush_current_field st.current_field st.field_buffer b
        { st with current := some b }
      | none => st
    .ok { st with current_field := some .answer,
                  field_buffer := rustTrim (dropPre 2 trimmed) }
  else if st.current_field.isSome then
    .ok { st with field_buffer :=
      (if st.field_buffer.isEmpty then [] else st.field_buffer ++ ['\n']) ++ line }
  else
    .ok st

/-- `sync.rs` `parse_md_content`: parse MD content to extract flashcards. -/
def parse_md_content (content : List Char) : Except ApiError (List ParsedCard) := do
  let st ← (rustLines content).enum.foldlM
    (fun st p => md_step st p.2 (p.1 + 1))
    ({ cards := [], current := none, current_field := none, field_buffer := [] } : LoopSt)
  match st.current with
  | some b => .ok (flush_field st.current_field st.field_buffer st.cards b).1
  | none => .ok st.cards

/-- `sync.rs` `regenerate_md_with_ids`: rebuild the content with `ID:` lines
inserted before each assigned line, terminating every line with `'\n'`, then
drop the final `'\n'` if the original content did not end with one. -/
def regenerate_md_with_ids (content : List Char) (newIds : List (ℕ × ℤ)) :
    List Char :=
  if newIds.isEmpty then content
  else
    let result := (rustLines content).enum.flatMap fun p =>
      (match lookupLast newIds (p.1 + 1) with
       | some id => ("ID: ".toList) ++ reprI64 id ++ ['\n']
       | none => []) ++ p.2 ++ ['\n']
    if ((!endsNL content) && endsNL result) then result.dropLast else result

end Backend

/-- The ID-injection output described by the spec (the reference side of the
refinement claim C4): for each entry of the mapping, a line `ID: <id>`
followed by a newline is inserted immediately before the mapped original
line; every byte of the original content is kept, so the output ends in a
newline exactly when the input does. -/
def specInjectIds (content : List Char) (idAssignments : List (ℕ × ℤ)) :
    List Char :=
  (linesKeepEnds content).enum.flatMap fun p =>
    (match lookupLast idAssignments (p.1 + 1) with
     | some id => ("ID: ".toList) ++ reprI64 id ++ ['\n']
     | none => []) ++ p.2

/-! ## Matching engine (`libs/flashcard-core/src/matching.rs`) -/

/-- Rust `String::len`: the UTF-8 byte length of a string. -/
def byteLen (s : List Char) : ℕ := (s.map Char.utf8Size).sum

/-- The classic Levenshtein recurrence on the length-`i` prefix of `a` and
the length-`j` prefix of `b` — the quantity the two-row dynamic program in
`levenshtein_distance` computes cell by cell (same cost structure and same
order of the three `min` candidates as the source). -/
def levFun (a b : List Char) : ℕ → ℕ → ℕ
  | 0, j => j
  | i + 1, 0 => i + 1
  | i + 1, j + 1 =>
    let cost : ℕ := if a.getD i ' ' = b.getD j ' ' then 0 else 1
    min (min (levFun a b i (j + 1) + 1) (levFun a b (i + 1) j + 1))
      (levFun a b i j + cost)
termination_by i j => (i, j)

/-- The inner `for j in 1..=n` loop of `levenshtein_distance`: walk the rest
of the previous row (`pj :: ps`) and of `b` (`y :: ys`), carrying the cell to
the left (`curr[j-1]`) and the diagonal (`prev[j-1]`). -/
def dpGo (x : Char) : ℕ → ℕ → List ℕ → List Char → List ℕ
  | left, diag, pj :: ps, y :: ys =>
    let cost : ℕ := if x = y then 0 else 1
    let c := min (min (pj + 1) (left + 1)) (diag + cost)
    c :: dpGo x c pj ps ys
  | _, _, _, _ => []

/-- One row update of the dynamic program (`curr[0] = i` then the inner
loop). -/
def dpRow (x : Char) (i : ℕ) (prev : List ℕ) (bs : List Char) : List ℕ :=
  match prev with
  | [] => [i]
  | p0 :: rest => i :: dpGo x i p0 rest bs

/-- The outer `for i in 1..=m` loop of `levenshtein_distance`. -/
def dpLoop (b : List Char) : List Char → ℕ → List ℕ → List ℕ
  | [], _, prev => prev
  | x :: xs, i, prev => dpLoop b xs (i + 1) (dpRow x i prev b)

/-- `matching.rs` `levenshtein_distance`: two-row dynamic program over the
character vectors of `a` and `b`; returns `prev[n]`. -/
def levenshtein_distance (a b : List Char) : ℕ :=
  let m := a.length
  let n := b.length
  if m = 0 then n
  else if n = 0 then m
  else (dpLoop b a 1 (List.range (n + 1))).getD n 0

/-- `matching.rs` `normalized_similarity`: `1 - distance / max_len` where
`max_len` is the larger BYTE length (`str::len`), and `1` when both strings
are empty.  The `f64` arithmetic is modelled exactly in `ℚ`. -/
def normalized_similarity (a b : List Char) : ℚ :=
  let maxLen := max (byteLen a) (byteLen b)
  if maxLen = 0 then 1
  else 1 - (levenshtein_distance a b : ℚ) / (maxLen : ℚ)

/-- Accumulator-style splitting on whitespace (Rust
`str::split_whitespace`): maximal runs of non-whitespace characters. -/
def rustWordsAux : List Char → List Char → List (List Char)
  | cur, [] => if cur.isEmpty then [] else [cur.reverse]
  | cur, c :: rest =>
    if rustIsWhitespace c then
      if cur.isEmpty then rustWordsAux [] rest
      else cur.reverse :: rustWordsAux [] rest
    else rustWordsAux (c :: cur) rest

/-- Rust `str::split_whitespace().collect::<Vec<_>>()`. -/
def rustWords (s : List Char) : List (List Char) := rustWordsAux [] s

/-- `matching.rs` `normalize_whitespace`: trim and collapse inner whitespace
runs to one space (`split_whitespace` + `join(" ")`). -/
def normalize_whitespace (s : List Char) : List Char :=
  List.intercalate [' '] (rustWords s)

/-- Rust `str::to_lowercase`, modelled character-wise (the simple Unicode
lowercase mapping; agrees with Rust on ASCII, which determines none of the
proved properties). -/
def rustToLowercase (s : List Char) : List Char := s.map Char.toLower

/-- Matching mode for typed answers (`types.rs::MatchingMode`). -/
inductive MatchingMode where
  | exact
  | caseInsensitive
  | fuzzy
  deriving DecidableEq, Repr

/-- `matching.rs` `MatchResult`. -/
structure MatchResult where
  is_correct : Bool
  similarity : ℚ
  matching_mode : MatchingMode
  typed_normalized : List Char
  correct_normalized : List Char
  deriving DecidableEq, Repr

/-- `matching.rs` `compare_answers`. -/
def compare_answers (typed correct : List Char) (mode : MatchingMode)
    (fuzzyThreshold : ℚ) : MatchResult :=
  let typedNormalized := normalize_whitespace typed
  let correctNormalized := normalize_whitespace correct
  match mode with
  | .exact =>
    let isCorrect := typedNormalized = correctNormalized
    { is_correct := isCorrect, similarity := if isCorrect then 1 else 0,
      matching_mode := mode, typed_normalized := typedNormalized,
      correct_normalized := correctNormalized }
  | .caseInsensitive =>
    let isCorrect :=
      rustToLowercase typedNormalized = rustToLowercase correctNormalized
    { is_correct := isCorrect, similarity := if isCorrect then 1 else 0,
      matching_mode := mode, typed_normalized := typedNormalized,
      correct_normalized := correctNormalized }
  | .fuzzy =>
    let similarity := normalized_similarity
      (rustToLowercase typedNormalized) (rustToLowercase correctNormalized)
    { is_correct := fuzzyThreshold ≤ similarity, similarity := similarity,
      matching_mode := mode, typed_normalized := typedNormalized,
      correct_normalized := correctNormalized }

/-! ## SM-2 scheduler (`libs/flashcard-core/src/algorithm/sm2.rs`)

SM-2 only adds, subtracts, multiplies and takes `max` of decimal constants,
so its `f64` arithmetic is modelled exactly by `ℚ`. -/

/-- SM-2 algorithm parameters (`Sm2`). -/
structure Sm2 where
  initial_ease : ℚ
  minimum_ease : ℚ
  easy_bonus : ℚ
  hard_multiplier : ℚ
  graduating_interval : ℚ
  easy_interval : ℚ
  deriving DecidableEq, Repr

/-- `Sm2::default`. -/
def sm2Default : Sm2 :=
  { initial_ease := 2.5, minimum_ease := 1.3, easy_bonus := 1.3,
    hard_multiplier := 1.2, graduating_interval := 1.0, easy_interval := 4.0 }

namespace Sm2

/-- `Sm2::initial_state`. -/
def initialState (p : Sm2) : CardState ℚ :=
  { status := .new, interval_days := 0, ease_factor := p.initial_ease,
    stability := none, difficulty := none, lapses := 0, reviews_count := 0,
    due_date := none }

/-- `Sm2::schedule_learning` (status `new` or `learning`): result is
`(new_status, new_interval, new_ease, new_lapses)`. -/
def schedule_learning (p : Sm2) (state : CardState ℚ) (rating : ℕ) :
    CardStatus × ℚ × ℚ × ℕ :=
  if 3 ≤ rating then
    let interval := if rating = 4 then p.easy_interval else p.graduating_interval
    (.review, interval, state.ease_factor, state.lapses)
  else
    (.learning, 0, state.ease_factor, state.lapses)

/-- `Sm2::schedule_review` (status `review` or `relearning`). -/
def schedule_review (p : Sm2) (state : CardState ℚ) (rating : ℕ) :
    CardStatus × ℚ × ℚ × ℕ :=
  if rating = 1 then
    (.relearning, 1, max (state.ease_factor - 0.2) p.minimum_ease,
      state.lapses + 1)
  else
    let easeAdj : ℚ := if rating = 2 then -0.15 else if rating = 4 then 0.15 else 0
    let multiplier : ℚ :=
      if rating = 2 then p.hard_multiplier
      else if rating = 4 then state.ease_factor * p.easy_bonus
      else state.ease_factor
    let newInterval := max (state.interval_days * multiplier) 1
    let newEase := max (state.ease_factor + easeAdj) p.minimum_ease
    (.review, newInterval, newEase, state.lapses)

/-- `Sm2::schedule`: dispatch on the status, then assemble the new state.
`next_due = now + Duration::days(interval.ceil())`, with `now` in seconds. -/
def schedule (p : Sm2) (state : CardState ℚ) (rating : Rating) (now : ℤ) :
    SchedulingResult ℚ :=
  let ratingValue := rating.toValue
  let r :=
    match state.status with
    | .new | .learning => schedule_learning p state ratingValue
    | .review | .relearning => schedule_review p state ratingValue
  let newStatus := r.1
  let newInterval := r.2.1
  let newEase := r.2.2.1
  let newLapses := r.2.2.2
  let nextDue := now + 86400 * ⌈newInterval⌉
  { new_state :=
      { status := newStatus, interval_days := newInterval,
        ease_factor := newEase, stability := none, difficulty := none,
        lapses := newLapses, reviews_count := state.reviews_count + 1,
        due_date := some nextDue },
    next_due := nextDue }

end Sm2

/-! ## FSRS scheduler (`libs/flashcard-core/src/algorithm/fsrs.rs`)

FSRS uses `exp` and `powf`, so its `f64` arithmetic is modelled over `ℝ`
(`powf` as `Real.rpow`, `exp` as `Real.exp`).  Rust's `max`/`min`/`clamp`
on `f64` are the real `max`/`min` (NaN handling is out of scope). -/

/-- Rust `f64::clamp(lo, hi)` = `min (max x lo) hi` (for `lo ≤ hi`). -/
noncomputable def rclamp (x lo hi : ℝ) : ℝ := min (max x lo) hi

/-- Rust `as i64` on a nonnegative-or-negative `f64`: truncation toward
zero (saturation at the `i64` range, irrelevant to every claim, is
omitted). -/
noncomputable def truncF64 (x : ℝ) : ℤ := if 0 ≤ x then ⌊x⌋ else -⌊-x⌋

/-- FSRS algorithm parameters (`Fsrs`); `w` models the 17-entry weight
array. -/
structure Fsrs where
  request_retention : ℝ
  maximum_interval : ℝ
  w : ℕ → ℝ

/-- `Fsrs::default`: FSRS-4.5 default weights. -/
noncomputable def fsrsDefault : Fsrs :=
  { request_retention := 0.9, maximum_interval := 36500,
    w := fun i =>
      [0.4, 0.6, 2.4, 5.8, 4.93, 0.94, 0.86, 0.01, 1.49, 0.14, 0.94, 2.18,
       0.05, 0.34, 1.26, 0.29, 2.61].getD i 0 }

namespace Fsrs

/-- `Fsrs::initial_state`. -/
def initialState : CardState ℝ :=
  { status := .new, interval_days := 0, ease_factor := 2.5,
    stability := none, difficulty := none, lapses := 0, reviews_count := 0,
    due_date := none }

/-- `Fsrs::initial_stability`: `w[min(G-1, 3)].max(0.1)` (the index uses
saturating subtraction, which `ℕ` subtraction is). -/
noncomputable def initial_stability (f : Fsrs) (rating : ℕ) : ℝ :=
  max (f.w (min (rating - 1) 3)) 0.1

/-- `Fsrs::initial_difficulty`: `clamp(w[4] - w[5]*(G-3), 1, 10)`. -/
noncomputable def initial_difficulty (f : Fsrs) (rating : ℕ) : ℝ :=
  rclamp (f.w 4 - f.w 5 * ((rating : ℝ) - 3)) 1 10

/-- `Fsrs::next_difficulty`: mean reversion then decay, clamped to
`[1, 10]`. -/
noncomputable def next_difficulty (f : Fsrs) (currentD : ℝ) (rating : ℕ) : ℝ :=
  let d0 := initial_difficulty f rating
  let dNew := f.w 7 * d0 + (1 - f.w 7) * currentD
  let dDecayed := dNew - f.w 6 * ((rating : ℝ) - 3)
  rclamp dDecayed 1 10

/-- `Fsrs::retrievability`: `(1 + t/(9S))^(-1)`, and `0` when `S ≤ 0`. -/
noncomputable def retrievability (elapsedDays stability : ℝ) : ℝ :=
  if stability ≤ 0 then 0
  else Real.rpow (1 + elapsedDays / (9 * stability)) (-1)

/-- `Fsrs::next_stability_recall`, clamped into
`[0.1, maximum_interval]`. -/
noncomputable def next_stability_recall (f : Fsrs)
    (stability difficulty retr : ℝ) (rating : ℕ) : ℝ :=
  let expW8 := Real.exp (f.w 8)
  let dFactor := max (11 - difficulty) 0.1
  let sDecay := Real.rpow stability (-(f.w 9))
  let rFactor := Real.exp (f.w 10 * (1 - retr)) - 1
  let growth := expW8 * dFactor * sDecay * rFactor + 1
  let modifier : ℝ :=
    if rating = 2 then f.w 15 else if rating = 4 then f.w 16 else 1
  min (max (stability * growth * modifier) 0.1) f.maximum_interval

/-- `Fsrs::next_stability_forget`: the post-lapse stability, clamped to at
least `0.1` and never exceeding the previous stability. -/
noncomputable def next_stability_forget (f : Fsrs)
    (stability difficulty retr : ℝ) : ℝ :=
  let dFactor := Real.rpow (max difficulty 1) (-(f.w 12))
  let sFactor := Real.rpow (stability + 1) (f.w 13) - 1
  let rFactor := Real.exp (f.w 14 * (1 - retr))
  min (max (f.w 11 * dFactor * sFactor * rFactor) 0.1) stability

/-- `Fsrs::interval_from_stability`. -/
noncomputable def interval_from_stability (f : Fsrs) (stability : ℝ) : ℝ :=
  if f.request_retention ≤ 0 ∨ 1 ≤ f.request_retention then stability
  else min (max (9 * stability * (1 / f.request_retention - 1)) 1) f.maximum_interval

/-- `Fsrs::short_term_interval`: 10 minutes to 1 day, in days. -/
noncomputable def short_term_interval (stability : ℝ) : ℝ :=
  min (max (stability * 60) 10) 1440 / 1440

/-- `Fsrs::elapsed_days`: time since the inferred last review, in days. -/
noncomputable def elapsed_days (state : CardState ℝ) (now : ℤ) : ℝ :=
  match state.due_date with
  | some due =>
    let intervalSecs : ℤ := truncF64 (state.interval_days * 86400)
    let lastReview := due - intervalSecs
    max (((now - lastReview : ℤ) : ℝ) / 86400) 0
  | none => max state.interval_days 0

/-- `Fsrs::determine_status`. -/
def determine_status (current : CardStatus) (rating : ℕ) : CardStatus :=
  match current, rating with
  | .new, 1 => .learning
  | .new, _ => .review
  | .learning, 1 => .learning
  | .learning, _ => .review
  | .review, 1 => .relearning
  | .review, _ => .review
  | .relearning, 1 => .relearning
  | .relearning, _ => .review

/-- `Fsrs::schedule_first_review`: `(stability, difficulty, status,
lapses)`. -/
noncomputable def schedule_first_review (f : Fsrs) (currentStatus : CardStatus)
    (rating : ℕ) (currentLapses : ℕ) : ℝ × ℝ × CardStatus × ℕ :=
  (initial_stability f rating, initial_difficulty f rating,
    determine_status currentStatus rating, currentLapses)

/-- `Fsrs::schedule_subsequent_review`. -/
noncomputable def schedule_subsequent_review (f : Fsrs) (state : CardState ℝ)
    (rating : ℕ) (now : ℤ) : ℝ × ℝ × CardStatus × ℕ :=
  let currentS := state.stability.getD 1
  let currentD := state.difficulty.getD 5
  let elapsed := elapsed_days state now
  let r := retrievability elapsed currentS
  let newD := next_difficulty f currentD rating
  let sl : ℝ × ℕ :=
    if rating = 1 then (next_stability_forget f currentS currentD r, state.lapses + 1)
    else (next_stability_recall f currentS currentD r rating, state.lapses)
  (sl.1, newD, determine_status state.status rating, sl.2)

/-- `Fsrs::schedule`. -/
noncomputable def schedule (f : Fsrs) (state : CardState ℝ) (rating : Rating)
    (now : ℤ) : SchedulingResult ℝ :=
  let ratingValue := rating.toValue
  let isFirstReview :=
    state.reviews_count = 0 ∨ state.stability = none ∨ state.difficulty = none
  let r :=
    if isFirstReview then schedule_first_review f state.status ratingValue state.lapses
    else schedule_subsequent_review f state ratingValue now
  let newStability := r.1
  let newDifficulty := r.2.1
  let newStatus := r.2.2.1
  let newLapses := r.2.2.2
  let newInterval :=
    if ratingValue = 1 then short_term_interval newStability
    else interval_from_stability f newStability
  let nextDue := now + truncF64 (newInterval * 86400)
  { new_state :=
      { status := newStatus, interval_days := newInterval,
        ease_factor := state.ease_factor, stability := some newStability,
        difficulty := some newDifficulty, lapses := newLapses,
        reviews_count := state.reviews_count + 1, due_date := some nextDue },
    next_due := nextDue }

end Fsrs

/-! ## Study day and review queues
(`apps/desktop/src-tauri/src/db/date_utils.rs`,
`apps/desktop/src-tauri/src/db/repository.rs::get_due_cards`,
`apps/backend/src/db/mod.rs::get_due_cards`) -/

/-- A local wall-clock instant, reduced to what the code reads from it:
the local calendar date (as a day number) and the hour of day. -/
structure LocalInstant where
  date : ℤ
  hour : ℕ
  deriving DecidableEq, Repr

/-- `date_utils.rs` `get_adjusted_today`: before the reset hour, "today" is
still yesterday. -/
def get_adjusted_today (dailyResetHour : ℕ) (now : LocalInstant) : ℤ :=
  if now.hour < dailyResetHour then now.date - 1 else now.date

/-- One joined row of `cards JOIN card_states` as the two due-card queries
read it.  Dates (`due_date`, `deleted_at`) are day numbers; SQL `NULL` is
`none`. -/
structure QueueRow where
  id : ℤ
  deck_path : List Char
  status : CardStatus
  due_date : Option ℤ
  deleted_at : Option ℤ
  deriving DecidableEq, Repr

/-- SQL `due_date <= today`: `NULL` compares as unknown, so a row with no
due date is not selected. -/
def dueLe (due : Option ℤ) (today : ℤ) : Bool :=
  match due with
  | some d => d ≤ today
  | none => false

/-- Comparator for SQL `ORDER BY cs.due_date`. -/
def byDueDate (r s : QueueRow) : Bool := r.due_date.getD 0 ≤ s.due_date.getD 0

/-- SQL `c.deck_path = ?` when a deck filter is given, else no condition. -/
def deckMatches (deckPath : Option (List Char)) (r : QueueRow) : Bool :=
  match deckPath with
  | some d => decide (r.deck_path = d)
  | none => true

/-- The desktop query's WHERE clause: deck filter, not soft-deleted,
`cs.status != 'new'`, `cs.due_date <= today`. -/
def desktopDuePred (deckPath : Option (List Char)) (today : ℤ)
    (r : QueueRow) : Bool :=
  deckMatches deckPath r && decide (r.deleted_at = none) &&
    decide (r.status ≠ .new) && dueLe r.due_date today

/-- Desktop `repository.rs` `get_due_cards`: rows satisfying the WHERE
clause against the reset-hour-adjusted local day, ordered by due date,
truncated to `limit`. -/
def desktopGetDueCards (rows : List QueueRow) (deckPath : Option (List Char))
    (limit : ℕ) (dailyResetHour : ℕ) (now : LocalInstant) : List QueueRow :=
  let today := get_adjusted_today dailyResetHour now
  (((rows.filter (desktopDuePred deckPath today)).mergeSort byDueDate).take limit)

/-- The backend query's WHERE clause: deck filter, not soft-deleted,
`cs.status IN ('review', 'learning', 'relearning')`,
`cs.due_date <= $today`. -/
def backendDuePred (deckPath : Option (List Char)) (today : ℤ)
    (r : QueueRow) : Bool :=
  deckMatches deckPath r && decide (r.deleted_at = none) &&
    decide (r.status = .review ∨ r.status = .learning ∨ r.status = .relearning) &&
    dueLe r.due_date today

/-- Backend `db/mod.rs` `get_due_cards`: the same query shape, but compared
against `Utc::now().date_naive()` — the UNADJUSTED current UTC date, passed
here as `utcToday`. -/
def backendGetDueCards (rows : List QueueRow) (deckPath : Option (List Char))
    (limit : ℕ) (utcToday : ℤ) : List QueueRow :=
  (((rows.filter (backendDuePred deckPath utcToday)).mergeSort byDueDate).take limit)

/-! ## Sync engine, review-push phase
(`apps/desktop/src-tauri/src/sync/mod.rs`:
`continue_sync_internal` step 3 and `push_reviews`) -/

/-- Sync errors (`sync/mod.rs::SyncError`), restricted to the variants the
review-push path produces. -/
inductive SyncError where
  | network (msg : List Char)
  | backend (status : ℕ) (msg : List Char)
  | parse (msg : List Char)
  deriving DecidableEq, Repr

/-- A `pending_reviews` row as the push phase reads it: its id and its
`synced` flag (the payload fields the POST body carries play no role in the
marking logic). -/
structure PendingReview where
  id : ℤ
  synced : Bool
  deriving DecidableEq, Repr

/-- The outcome of the push-reviews POST as the client observes it: a
transport failure, or a response with an HTTP status whose body either
decodes to a `synced_count` or fails to decode. -/
inductive PushHttpResult where
  | netErr (msg : List Char)
  | resp (status : ℕ) (msg : List Char) (body : Option ℕ)
  deriving DecidableEq, Repr

/-- `reqwest::StatusCode::is_success`: a 2xx status. -/
def isSuccessStatus (s : ℕ) : Bool := 200 ≤ s && s < 300

/-- `SyncEngine::push_reviews`: network error → `SyncError::Network`;
non-2xx status → `SyncError::Backend`; undecodable 2xx body →
`SyncError::Parse`; otherwise the decoded `synced_count`. -/
def push_reviews (r : PushHttpResult) : Except SyncError ℕ :=
  match r with
  | .netErr m => .error (.network m)
  | .resp status msg body =>
    if !isSuccessStatus status then .error (.backend status msg)
    else
      match body with
      | some n => .ok n
      | none => .error (.parse msg)

/-- Local-store callback `get_pending_reviews`: all rows with
`synced = false`. -/
def get_pending_reviews (store : List PendingReview) : List PendingReview :=
  store.filter fun r => !r.synced

/-- Local-store callback `mark_reviews_synced`: set `synced = true` on the
given ids. -/
def mark_reviews_synced (store : List PendingReview) (ids : List ℤ) :
    List PendingReview :=
  store.map fun r => if r.id ∈ ids then { r with synced := true } else r

/-- The outcome of the push phase on the local store: the error (if the
cycle failed there) and the resulting `pending_reviews` table. -/
structure PushPhaseResult where
  error : Option SyncError
  store : List PendingReview
  deriving DecidableEq, Repr

/-- Step 3 of `SyncEngine::continue_sync_internal`: drain the pending
reviews; if there are any, POST them, propagating a push failure with `?`
(in which case `mark_reviews_synced` is never reached), and only on success
mark exactly the drained ids as synced. -/
def continue_sync_push_phase (store : List PendingReview)
    (resp : PushHttpResult) : PushPhaseResult :=
  let pendingReviews := get_pending_reviews store
  if pendingReviews.isEmpty then { error := none, store := store }
  else
    match push_reviews resp with
    | .error e => { error := some e, store := store }
    | .ok _ =>
      { error := none,
        store := mark_reviews_synced store (pendingReviews.map (·.id)) }

/-! # Theorems settling the claims -/

/-- C1 (code bug): the spec — and the parser's own unit tests
(`parse_multiple_cards`, `parse_mixed_id_and_no_id`) — demand one parsed
card per block, a new block starting at each `ID:` or `Q:` line.  Evaluating
the embedded parsers on two-block files shows the core parser always merges
the blocks into a SINGLE card carrying the last block's data (it never emits
the in-progress card when a new block header arrives), and the backend
parser does the same whenever the second block starts with `Q:`. -/
theorem c1_two_blocks_parse_to_one_card :
    Core.parse ("Q: Q1\nA: A1\n\nQ: Q2\nA: A2".toList) =
      .ok [{ id := none, question := "Q2".toList, answer := "A2".toList,
             line_number := 1 }] ∧
    Backend.parse_md_content ("Q: Q1\nA: A1\n\nQ: Q2\nA: A2".toList) =
      .ok [{ id := none, question := "Q2".toList, answer := "A2".toList,
             line := 1 }] ∧
    Core.parse ("ID: 1\nQ: Q1\nA: A1\n\nID: 2\nQ: Q2\nA: A2".toList) =
      .ok [{ id := some 2, question := "Q2".toList, answer := "A2".toList,
             line_number := 1 }] :=
  ⟨rfl, rfl, rfl⟩

/-- C2 (code bug): on a file whose two blocks carry the same `ID: 1`, the
spec — and the core parser's own test `reject_duplicate_ids` — demand
`ParseError::DuplicateId`.  Evaluating the embedded parsers shows the core
parser returns `Ok` with one merged card (its duplicate check only ever sees
the single card `finalize` builds) and the backend parser returns `Ok` with
BOTH cards carrying id 1 (it has no duplicate check at all). -/
theorem c2_duplicate_ids_not_rejected :
    Core.parse ("ID: 1\nQ: Q1\nA: A1\n\nID: 1\nQ: Q2\nA: A2".toList) =
      .ok [{ id := some 1, question := "Q2".toList, answer := "A2".toList,
             line_number := 1 }] ∧
    Backend.parse_md_content ("ID: 1\nQ: Q1\nA: A1\n\nID: 1\nQ: Q2\nA: A2".toList) =
      .ok [{ id := some 1, question := "Q1".toList, answer := "A1".toList,
             line := 1 },
           { id := some 1, question := "Q2".toList, answer := "A2".toList,
             line := 5 }] :=
  ⟨rfl, rfl⟩

/-- C3 counterexample: the claim says a block with a question but no answer
is silently dropped with no error, for every input.  The core parser
instead FAILS with `ParseError::MissingAnswer` on such a block (as its own
test `reject_missing_answer` expects). -/
theorem c3_core_errors_on_answerless_block :
    Core.parse ("ID: 1\nQ: Question only".toList) =
      .error (.missingAnswer 1) :=
  rfl

/-- C3 (amended): in the BACKEND parser, a block whose builder — after the
final field flush — lacks a question or lacks an answer is silently
dropped: `flush_field` (which is the only place cards are emitted, and
which has no error path) leaves the card list unchanged. -/
theorem c3_backend_drops_incomplete_block (field : Option Backend.Field)
    (buffer : List Char) (cards : List Backend.ParsedCard)
    (b : Backend.ParsedCardBuilder)
    (h : (Backend.flush_current_field field buffer b).question = none ∨
         (Backend.flush_current_field field buffer b).answer = none) :
    (Backend.flush_field field buffer cards b).1 = cards := by
  unfold Backend.flush_field
  rcases hq : (Backend.flush_current_field field buffer b).question with _ | q
  · simp [hq]
  · rcases ha : (Backend.flush_current_field field buffer b).answer with _ | a
    · simp [hq, ha]
    · rcases h with h | h
      · rw [hq] at h; exact absurd h (by simp)
      · rw [ha] at h; exact absurd h (by simp)

/-- Witness for C3: a concrete builder with a question but no answer,
through a flush with no pending field, emits no card. -/
theorem c3_backend_drops_incomplete_block_witness :
    ((Backend.flush_current_field none []
        { id := some 1, question := some ("Q1".toList), answer := none,
          line := 1 }).question = none ∨
     (Backend.flush_current_field none []
        { id := some 1, question := some ("Q1".toList), answer := none,
          line := 1 }).answer = none) ∧
    (Backend.flush_field none [] []
      { id := some 1, question := some ("Q1".toList), answer := none,
        line := 1 }).1 = [] :=
  ⟨Or.inr rfl,
    c3_backend_drops_incomplete_block none [] []
      { id := some 1, question := some ("Q1".toList), answer := none,
        line := 1 } (Or.inr rfl)⟩

/-- C5: from a `review`-status state, SM-2 with rating `Again` yields
status `relearning`, interval 1, ease `max(ease - 0.2, minimum_ease)`,
`lapses + 1` and `reviews_count + 1`. -/
theorem c5_sm2_review_again (st : CardState ℚ) (now : ℤ)
    (h : st.status = .review) :
    ((Sm2.schedule sm2Default st .again now).new_state.status = .relearning) ∧
    ((Sm2.schedule sm2Default st .again now).new_state.interval_days = 1) ∧
    ((Sm2.schedule sm2Default st .again now).new_state.ease_factor =
      max (st.ease_factor - 0.2) sm2Default.minimum_ease) ∧
    ((Sm2.schedule sm2Default st .again now).new_state.lapses = st.lapses + 1) ∧
    ((Sm2.schedule sm2Default st .again now).new_state.reviews_count =
      st.reviews_count + 1) := by
  obtain ⟨s, i, e, sb, df, l, rc, d⟩ := st
  cases h
  exact ⟨rfl, rfl, rfl, rfl, rfl⟩

/-- Witness for C5: the spec's concrete scenario — from
`{review, interval=10, ease=2.5, lapses=0, reviews=5}` rating `Again` gives
`{relearning, interval=1, ease=2.3, lapses=1, reviews=6}`. -/
theorem c5_sm2_review_again_witness :
    (({ status := .review, interval_days := 10, ease_factor := 2.5,
        stability := none, difficulty := none, lapses := 0,
        reviews_count := 5, due_date := none } : CardState ℚ).status =
          .review) ∧
    ((Sm2.schedule sm2Default
        { status := .review, interval_days := 10, ease_factor := 2.5,
          stability := none, difficulty := none, lapses := 0,
          reviews_count := 5, due_date := none } .again 0).new_state.status =
            .relearning) ∧
    ((Sm2.schedule sm2Default
        { status := .review, interval_days := 10, ease_factor := 2.5,
          stability := none, difficulty := none, lapses := 0,
          reviews_count := 5, due_date := none } .again 0).new_state.interval_days
          = 1) ∧
    ((Sm2.schedule sm2Default
        { status := .review, interval_days := 10, ease_factor := 2.5,
          stability := none, difficulty := none, lapses := 0,
          reviews_count := 5, due_date := none } .again 0).new_state.ease_factor
          = 2.3) ∧
    ((Sm2.schedule sm2Default
        { status := .review, interval_days := 10, ease_factor := 2.5,
          stability := none, difficulty := none, lapses := 0,
          reviews_count := 5, due_date := none } .again 0).new_state.lapses
          = 1) ∧
    ((Sm2.schedule sm2Default
        { status := .review, interval_days := 10, ease_factor := 2.5,
          stability := none, difficulty := none, lapses := 0,
          reviews_count := 5, due_date := none } .again 0).new_state.reviews_count
          = 6) := by
  have h := c5_sm2_review_again
    { status := .review, interval_days := 10, ease_factor := 2.5,
      stability := none, difficulty := none, lapses := 0,
      reviews_count := 5, due_date := none } 0 rfl
  refine ⟨rfl, h.1, h.2.1, ?_, h.2.2.2.1, h.2.2.2.2⟩
  rw [h.2.2.1]
  norm_num [sm2Default, max_def]

/-- C10: SM-2 always returns `stability = none` and `difficulty = none` —
even when the input state carried values — and none of the other output
fields depend on the input's stability or difficulty (the whole result is
unchanged under replacing them). -/
theorem c10_sm2_erases_fsrs_fields (st : CardState ℚ) (r : Rating) (now : ℤ) :
    ((Sm2.schedule sm2Default st r now).new_state.stability = none) ∧
    ((Sm2.schedule sm2Default st r now).new_state.difficulty = none) ∧
    (∀ sb df, Sm2.schedule sm2Default
        { st with stability := sb, difficulty := df } r now =
      Sm2.schedule sm2Default st r now) :=
  ⟨rfl, rfl, fun _ _ => rfl⟩

/-- C9: in a sync cycle's push phase, the pending-review store changes only
when the push-reviews POST came back with a 2xx status (and a decodable
body); and whenever the push fails — network error or non-2xx status — the
phase reports the error with the store untouched. -/
theorem c9_reviews_marked_only_after_2xx (store : List PendingReview)
    (resp : PushHttpResult) :
    ((continue_sync_push_phase store resp).store ≠ store →
      ∃ status msg n, resp = .resp status msg (some n) ∧
        isSuccessStatus status = true) ∧
    (((∃ m, resp = .netErr m) ∨
      (∃ status msg body, resp = .resp status msg body ∧
        isSuccessStatus status = false)) →
      (continue_sync_push_phase store resp).store = store) := by
  constructor
  · intro hne
    by_cases hp : (get_pending_reviews store).isEmpty
    · exact absurd (by simp [continue_sync_push_phase, hp]) hne
    · cases resp with
      | netErr m =>
        exact absurd (by simp [continue_sync_push_phase, hp, push_reviews]) hne
      | resp status msg body =>
        by_cases hs : isSuccessStatus status
        · cases body with
          | none =>
            exact absurd
              (by simp [continue_sync_push_phase, hp, push_reviews, hs]) hne
          | some n => exact ⟨status, msg, n, rfl, hs⟩
        · exact absurd
            (by simp [continue_sync_push_phase, hp, push_reviews, hs]) hne
  · rintro (⟨m, rfl⟩ | ⟨status, msg, body, rfl, hs⟩)
    · by_cases hp : (get_pending_reviews store).isEmpty <;>
        simp [continue_sync_push_phase, hp, push_reviews]
    · by_cases hp : (get_pending_reviews store).isEmpty <;>
        simp [continue_sync_push_phase, hp, push_reviews, hs]

/-- Witness for C9: with one unsynced pending review and a 500 response,
the push phase leaves the store unchanged. -/
theorem c9_reviews_marked_only_after_2xx_witness :
    ((∃ m, (PushHttpResult.resp 500 [] none) = .netErr m) ∨
     (∃ status msg body, (PushHttpResult.resp 500 [] none) =
        .resp status msg body ∧ isSuccessStatus status = false)) ∧
    (continue_sync_push_phase [{ id := 1, synced := false }]
      (.resp 500 [] none)).store = [{ id := 1, synced := false }] :=
  ⟨Or.inr ⟨500, [], none, rfl, rfl⟩,
    (c9_reviews_marked_only_after_2xx [{ id := 1, synced := false }]
      (.resp 500 [] none)).2 (Or.inr ⟨500, [], none, rfl, rfl⟩)⟩

/-- C8 counterexample: with `daily_reset_hour = 4` at local time 03:30 on
day 100, the claim's study day is 99, so a card due on day 100 must not be
surfaced — yet the backend `get_due_cards`, which compares against the
unadjusted current UTC date (day 100 at that instant), returns it. -/
theorem c8_backend_ignores_reset_hour :
    backendGetDueCards
        [{ id := 1, deck_path := "d".toList, status := .review,
           due_date := some 100, deleted_at := none }] none 200 100 =
      [{ id := 1, deck_path := "d".toList, status := .review,
         due_date := some 100, deleted_at := none }] ∧
    get_adjusted_today 4 { date := 100, hour := 3 } = 99 ∧
    ¬ ((100 : ℤ) ≤ 99) := by
  refine ⟨?_, by decide, by decide⟩
  simp [backendGetDueCards, backendDuePred, deckMatches, dueLe,
    List.mergeSort_singleton]

/-- C8 (amended): the DESKTOP review queue is as the claim says: every
returned card has status in {review, learning, relearning} (the query's
`status != 'new'`) and a due date on or before the reset-hour-adjusted
study day, which is the local date minus one day before the reset hour and
the local date otherwise.  (The backend queue instead compares against the
unadjusted UTC date; see the counterexample.) -/
theorem c8_desktop_queue_uses_adjusted_day (rows : List QueueRow)
    (deckPath : Option (List Char)) (limit dailyResetHour : ℕ)
    (now : LocalInstant) (r : QueueRow)
    (h : r ∈ desktopGetDueCards rows deckPath limit dailyResetHour now) :
    (r.status = .review ∨ r.status = .learning ∨ r.status = .relearning) ∧
    (∃ d, r.due_date = some d ∧ d ≤ get_adjusted_today dailyResetHour now) ∧
    get_adjusted_today dailyResetHour now =
      (if now.hour < dailyResetHour then now.date - 1 else now.date) := by
  have hmem : r ∈ (rows.filter
      (desktopDuePred deckPath (get_adjusted_today dailyResetHour now))) := by
    have h1 := List.take_subset _ _ h
    exact List.mem_mergeSort.mp h1
  have hpred := List.of_mem_filter hmem
  rw [desktopDuePred] at hpred
  simp only [Bool.and_eq_true, decide_eq_true_eq] at hpred
  obtain ⟨⟨⟨_, hdel⟩, hstatus⟩, hdue⟩ := hpred
  refine ⟨?_, ?_, rfl⟩
  · cases hst : r.status with
    | new => exact absurd hst hstatus
    | learning => exact Or.inr (Or.inl rfl)
    | review => exact Or.inl rfl
    | relearning => exact Or.inr (Or.inr rfl)
  · cases hd : r.due_date with
    | none => rw [hd] at hdue; simp [dueLe] at hdue
    | some d =>
      rw [hd] at hdue
      simp only [dueLe, decide_eq_true_eq] at hdue
      exact ⟨d, rfl, hdue⟩

/-- Witness for C8: a concrete card due on day 100, queried at hour 5 with
reset hour 4 (study day 100), is returned by the desktop queue, and the
theorem's conclusions hold for it. -/
theorem c8_desktop_queue_uses_adjusted_day_witness :
    (({ id := 1, deck_path := "d".toList, status := .review,
        due_date := some 100, deleted_at := none } : QueueRow) ∈
      desktopGetDueCards
        [{ id := 1, deck_path := "d".toList, status := .review,
           due_date := some 100, deleted_at := none }] none 10 4
        { date := 100, hour := 5 }) ∧
    ((({ id := 1, deck_path := "d".toList, status := .review,
         due_date := some 100, deleted_at := none } : QueueRow).status =
           .review ∨
      ({ id := 1, deck_path := "d".toList, status := .review,
         due_date := some 100, deleted_at := none } : QueueRow).status =
           .learning ∨
      ({ id := 1, deck_path := "d".toList, status := .review,
         due_date := some 100, deleted_at := none } : QueueRow).status =
           .relearning) ∧
     (∃ d, ({ id := 1, deck_path := "d".toList, status := .review,
              due_date := some 100, deleted_at := none } : QueueRow).due_date =
         some d ∧ d ≤ get_adjusted_today 4 { date := 100, hour := 5 }) ∧
     get_adjusted_today 4 { date := 100, hour := 5 } =
       (if (5 : ℕ) < 4 then (100 : ℤ) - 1
        else ({ date := 100, hour := 5 } : LocalInstant).date)) := by
  constructor
  · simp [desktopGetDueCards, desktopDuePred, deckMatches, dueLe,
      get_adjusted_today, List.mergeSort_singleton]
  · exact c8_desktop_queue_uses_adjusted_day
      [{ id := 1, deck_path := "d".toList, status := .review,
         due_date := some 100, deleted_at := none }] none 10 4
      { date := 100, hour := 5 }
      { id := 1, deck_path := "d".toList, status := .review,
        due_date := some 100, deleted_at := none }
      (by simp [desktopGetDueCards, desktopDuePred, deckMatches, dueLe,
        get_adjusted_today, List.mergeSort_singleton])

/-- Helper: `clamp(x, 1, 10)` lies in `[1, 10]`. -/
theorem rclamp_one_ten_mem (x : ℝ) :
    1 ≤ rclamp x 1 10 ∧ rclamp x 1 10 ≤ 10 :=
  ⟨le_min (le_max_right x 1) (by norm_num), min_le_right _ _⟩

/-- Helper: the post-lapse stability clamp `min (max x 0.1) s` is positive
whenever the previous stability `s` is. -/
theorem forget_clamp_pos (x s : ℝ) (hs : 0 < s) : 0 < min (max x 0.1) s :=
  lt_min (lt_of_lt_of_le (by norm_num) (le_max_right x 0.1)) hs

/-- Helper: the recall clamp `min (max x 0.1) 36500` is positive. -/
theorem recall_clamp_pos (x : ℝ) : 0 < min (max x 0.1) (36500 : ℝ) :=
  lt_min (lt_of_lt_of_le (by norm_num) (le_max_right x 0.1)) (by norm_num)

/-- C6 counterexample: the claim quantifies over EVERY input card state, but
on a state carrying `stability = Some(-1.0)` (reachable only through
corrupted or hand-edited data, yet an input state all the same) FSRS with
rating `Again` returns `stability = Some(-1.0)` again — the lapse formula's
final `.min(stability)` clamp preserves the non-positive value — so the
returned stability is not `> 0`. -/
theorem c6_fsrs_negative_stability_kept :
    ¬ (∃ s, (Fsrs.schedule fsrsDefault
        { status := .review, interval_days := 0, ease_factor := 2.5,
          stability := some (-1), difficulty := some 5, lapses := 0,
          reviews_count := 5, due_date := none } .again 0).new_state.stability =
          some s ∧ 0 < s) := by
  rintro ⟨s, hs, hpos⟩
  have key : (Fsrs.schedule fsrsDefault
      { status := .review, interval_days := 0, ease_factor := 2.5,
        stability := some (-1), difficulty := some 5, lapses := 0,
        reviews_count := 5, due_date := none } .again 0).new_state.stability =
      some (-1) := by
    simp only [Fsrs.schedule, Fsrs.schedule_subsequent_review,
      Fsrs.next_stability_forget, Rating.toValue, Option.getD_some]
    rw [if_neg (by simp)]
    simp only [if_pos rfl]
    rw [min_eq_right (le_trans (by norm_num : (-1 : ℝ) ≤ 0.1) (le_max_right _ _))]
    simp
  rw [key] at hs
  have : s = -1 := (Option.some.injEq _ _).mp hs.symm
  rw [this] at hpos
  norm_num at hpos

/-- Helper: `initial_difficulty` is clamped into `[1, 10]`. -/
theorem initial_difficulty_mem (f : Fsrs) (g : ℕ) :
    1 ≤ f.initial_difficulty g ∧ f.initial_difficulty g ≤ 10 := by
  simp only [Fsrs.initial_difficulty]
  exact rclamp_one_ten_mem _

/-- Helper: `next_difficulty` is clamped into `[1, 10]`. -/
theorem next_difficulty_mem (f : Fsrs) (d : ℝ) (g : ℕ) :
    1 ≤ f.next_difficulty d g ∧ f.next_difficulty d g ≤ 10 := by
  simp only [Fsrs.next_difficulty]
  exact rclamp_one_ten_mem _

/-- Helper: `initial_stability` is at least `0.1`, hence positive. -/
theorem initial_stability_pos (f : Fsrs) (g : ℕ) : 0 < f.initial_stability g := by
  simp only [Fsrs.initial_stability]
  exact lt_of_lt_of_le (by norm_num) (le_max_right _ _)

/-- Helper: the post-lapse stability stays positive when the previous
stability is positive. -/
theorem next_stability_forget_pos (f : Fsrs) (s d r : ℝ) (hs : 0 < s) :
    0 < f.next_stability_forget s d r := by
  simp only [Fsrs.next_stability_forget]
  exact forget_clamp_pos _ _ hs

/-- Helper: with the default `maximum_interval = 36500`, the post-recall
stability is positive. -/
theorem next_stability_recall_pos_default (s d r : ℝ) (g : ℕ) :
    0 < fsrsDefault.next_stability_recall s d r g := by
  simp only [Fsrs.next_stability_recall]
  exact lt_min (lt_of_lt_of_le (by norm_num) (le_max_right _ _))
    (by norm_num [fsrsDefault])

/-- Helper: on a subsequent review (stability and difficulty present, the
former positive), the new difficulty is in `[1, 10]` and the new stability
is positive. -/
theorem schedule_subsequent_bounds (st : CardState ℝ) (g : ℕ) (now : ℤ)
    (s0 d0 : ℝ) (hstab : st.stability = some s0) (hdiff : st.difficulty = some d0)
    (hs0 : 0 < s0) :
    (1 ≤ (Fsrs.schedule_subsequent_review fsrsDefault st g now).2.1 ∧
      (Fsrs.schedule_subsequent_review fsrsDefault st g now).2.1 ≤ 10) ∧
    0 < (Fsrs.schedule_subsequent_review fsrsDefault st g now).1 := by
  simp only [Fsrs.schedule_subsequent_review, hstab, hdiff, Option.getD_some]
  refine ⟨⟨(next_difficulty_mem _ _ _).1, (next_difficulty_mem _ _ _).2⟩, ?_⟩
  by_cases hg : g = 1
  · rw [if_pos hg]
    exact next_stability_forget_pos _ _ _ _ hs0
  · rw [if_neg hg]
    exact next_stability_recall_pos_default _ _ _ _

/-- C6 (amended): for every input card state whose stability field, when
present, is positive — which covers every state FSRS itself produces — and
for every rating, the FSRS-scheduled state has difficulty present with
`1 ≤ D ≤ 10` and stability present with `S > 0`. -/
theorem c6_fsrs_bounds (st : CardState ℝ) (r : Rating) (now : ℤ)
    (h : ∀ s, st.stability = some s → 0 < s) :
    (∃ d, (Fsrs.schedule fsrsDefault st r now).new_state.difficulty = some d ∧
      1 ≤ d ∧ d ≤ 10) ∧
    (∃ s, (Fsrs.schedule fsrsDefault st r now).new_state.stability = some s ∧
      0 < s) := by
  by_cases hf : (st.reviews_count = 0 ∨ st.stability = none ∨ st.difficulty = none)
  · have hd : (Fsrs.schedule fsrsDefault st r now).new_state.difficulty =
        some (fsrsDefault.initial_difficulty r.toValue) := by
      simp only [Fsrs.schedule, Fsrs.schedule_first_review]
      rw [if_pos hf]
    have hsb : (Fsrs.schedule fsrsDefault st r now).new_state.stability =
        some (fsrsDefault.initial_stability r.toValue) := by
      simp only [Fsrs.schedule, Fsrs.schedule_first_review]
      rw [if_pos hf]
    exact ⟨⟨_, hd, (initial_difficulty_mem _ _).1, (initial_difficulty_mem _ _).2⟩,
      ⟨_, hsb, initial_stability_pos _ _⟩⟩
  · have hd : (Fsrs.schedule fsrsDefault st r now).new_state.difficulty =
        some (Fsrs.schedule_subsequent_review fsrsDefault st r.toValue now).2.1 := by
      simp only [Fsrs.schedule]
      rw [if_neg hf]
    have hsb : (Fsrs.schedule fsrsDefault st r now).new_state.stability =
        some (Fsrs.schedule_subsequent_review fsrsDefault st r.toValue now).1 := by
      simp only [Fsrs.schedule]
      rw [if_neg hf]
    push_neg at hf
    obtain ⟨hrc, hst, hdf⟩ := hf
    obtain ⟨s0, hstab⟩ := Option.ne_none_iff_exists'.mp hst
    obtain ⟨d0, hdiff⟩ := Option.ne_none_iff_exists'.mp hdf
    have hb := schedule_subsequent_bounds st r.toValue now s0 d0 hstab hdiff
      (h s0 hstab)
    exact ⟨⟨_, hd, hb.1.1, hb.1.2⟩, ⟨_, hsb, hb.2⟩⟩

/-- Witness for C6: a concrete review-status state with stability 1 and
difficulty 5, graded `Good`. -/
theorem c6_fsrs_bounds_witness :
    (∀ s, ({ status := .review, interval_days := 1, ease_factor := 2.5,
             stability := some 1, difficulty := some 5, lapses := 0,
             reviews_count := 3, due_date := none } : CardState ℝ).stability =
        some s → 0 < s) ∧
    ((∃ d, (Fsrs.schedule fsrsDefault
        { status := .review, interval_days := 1, ease_factor := 2.5,
          stability := some 1, difficulty := some 5, lapses := 0,
          reviews_count := 3, due_date := none } .good 0).new_state.difficulty =
          some d ∧ 1 ≤ d ∧ d ≤ 10) ∧
     (∃ s, (Fsrs.schedule fsrsDefault
        { status := .review, interval_days := 1, ease_factor := 2.5,
          stability := some 1, difficulty := some 5, lapses := 0,
          reviews_count := 3, due_date := none } .good 0).new_state.stability =
          some s ∧ 0 < s)) := by
  have hpos : ∀ s, ({ status := .review, interval_days := 1, ease_factor := 2.5,
                      stability := some 1, difficulty := some 5, lapses := 0,
                      reviews_count := 3, due_date := none } :
      CardState ℝ).stability = some s → 0 < s := by
    intro s hs
    have : (1 : ℝ) = s := (Option.some.injEq _ _).mp hs
    rw [← this]
    norm_num
  exact ⟨hpos,
    c6_fsrs_bounds
      { status := .review, interval_days := 1, ease_factor := 2.5,
        stability := some 1, difficulty := some 5, lapses := 0,
        reviews_count := 3, due_date := none } .good 0 hpos⟩

/-- Helper: the recurrence at `j = 0` is `i`. -/
theorem levFun_right_zero (a b : List Char) (i : ℕ) : levFun a b i 0 = i := by
  cases i with
  | zero => rw [levFun]
  | succ i => rw [levFun]

/-- Helper: the edit distance of prefixes is at most the larger prefix
length. -/
theorem levFun_le_max (a b : List Char) :
    ∀ i j, levFun a b i j ≤ max i j := by
  intro i
  induction i with
  | zero => intro j; rw [levFun]; exact le_max_right 0 j
  | succ i ih =>
    intro j
    cases j with
    | zero => rw [levFun]; exact le_max_left _ _
    | succ j =>
      rw [levFun]
      have hc : (if a.getD i ' ' = b.getD j ' ' then 0 else 1) ≤ 1 := by
        split <;> norm_num
      calc min (min (levFun a b i (j + 1) + 1) (levFun a b (i + 1) j + 1))
            (levFun a b i j + (if a.getD i ' ' = b.getD j ' ' then 0 else 1))
          ≤ levFun a b i j + (if a.getD i ' ' = b.getD j ' ' then 0 else 1) :=
            min_le_right _ _
        _ ≤ max i j + 1 := Nat.add_le_add (ih j) hc
        _ = max (i + 1) (j + 1) := (Nat.succ_max_succ i j).symm

/-- Helper: the edit distance of prefixes vanishes exactly when the
prefixes are equal. -/
theorem levFun_eq_zero_iff (a b : List Char) :
    ∀ i j, i ≤ a.length → j ≤ b.length →
      (levFun a b i j = 0 ↔ a.take i = b.take j) := by
  intro i
  induction i with
  | zero =>
    intro j _ hj
    rw [levFun]
    constructor
    · rintro rfl; rfl
    · intro h
      have h1 := congrArg List.length h
      simp only [List.take_nil, List.length_take, List.length_nil] at h1
      omega
  | succ i ih =>
    intro j hi hj
    cases j with
    | zero =>
      rw [levFun]
      refine iff_of_false (by omega) ?_
      intro h
      have h1 := congrArg List.length h
      simp only [List.length_take, List.length_nil] at h1
      omega
    | succ j =>
      have hi' : i < a.length := by omega
      have hj' : j < b.length := by omega
      rw [levFun]
      have hgda : a.getD i ' ' = a[i] := List.getD_eq_getElem a ' ' hi'
      have hgdb : b.getD j ' ' = b[j] := List.getD_eq_getElem b ' ' hj'
      have htake : (a.take (i + 1) = b.take (j + 1)) ↔
          (a.take i = b.take j ∧ a[i] = b[j]) := by
        rw [List.take_succ, List.take_succ,
          List.getElem?_eq_getElem hi', List.getElem?_eq_getElem hj']
        constructor
        · intro h
          have hlen : (a.take i).length = (b.take j).length := by
            have h1 := congrArg List.length h
            simp only [List.length_append, List.length_take,
              Option.toList_some, List.length_cons, List.length_nil] at h1
            simp only [List.length_take]
            omega
          obtain ⟨h2, h3⟩ := List.append_inj h (by
            simp only [List.length_take]
            have := hlen
            simp only [List.length_take] at this
            omega)
          exact ⟨h2, by simpa using h3⟩
        · rintro ⟨h2, h3⟩
          rw [h2, h3]
      constructor
      · intro h0
        have hA : levFun a b i (j + 1) + 1 ≠ 0 := Nat.succ_ne_zero _
        have hB : levFun a b (i + 1) j + 1 ≠ 0 := Nat.succ_ne_zero _
        have hC : levFun a b i j +
            (if a.getD i ' ' = b.getD j ' ' then 0 else 1) = 0 := by
          rcases Nat.min_eq_zero_iff.mp h0 with h1 | h1
          · rcases Nat.min_eq_zero_iff.mp h1 with h2 | h2
            · exact absurd h2 hA
            · exact absurd h2 hB
          · exact h1
        have hC1 : levFun a b i j = 0 := by omega
        have hC2 : (if a.getD i ' ' = b.getD j ' ' then 0 else 1) = 0 := by
          omega
        have hch : a[i] = b[j] := by
          by_cases hcc : a.getD i ' ' = b.getD j ' '
          · rw [← hgda, ← hgdb]; exact hcc
          · rw [if_neg hcc] at hC2; omega
        exact htake.mpr ⟨(ih j (by omega) (by omega)).mp hC1, hch⟩
      · intro heq
        obtain ⟨h2, h3⟩ := htake.mp heq
        have hC1 : levFun a b i j = 0 :=
          (ih j (by omega) (by omega)).mpr h2
        have hC2 : (if a.getD i ' ' = b.getD j ' ' then 0 else 1) = 0 := by
          rw [if_pos (by rw [hgda, hgdb]; exact h3)]
        have : levFun a b i j +
            (if a.getD i ' ' = b.getD j ' ' then 0 else 1) = 0 := by omega
        omega

/-- Helper: the inner DP loop turns the tail of row `k` into the tail of
row `k+1` of the `levFun` table. -/
theorem dpGo_spec (a b : List Char) (k : ℕ) :
    ∀ (m j0 : ℕ), b.length - j0 = m → j0 ≤ b.length →
      dpGo (a.getD k ' ') (levFun a b (k + 1) j0) (levFun a b k j0)
          ((List.range' (j0 + 1) (b.length - j0)).map (levFun a b k))
          (b.drop j0)
        = (List.range' (j0 + 1) (b.length - j0)).map (levFun a b (k + 1)) := by
  intro m
  induction m with
  | zero =>
    intro j0 hm hle
    have hj0 : j0 = b.length := by omega
    subst hj0
    simp [dpGo]
  | succ m ih =>
    intro j0 hm hle
    have hlt : j0 < b.length := by omega
    rw [List.drop_eq_getElem_cons hlt]
    rw [show b.length - j0 = (b.length - (j0 + 1)) + 1 by omega]
    rw [List.range'_succ]
    simp only [List.map_cons]
    rw [dpGo]
    have hgdb : b.getD j0 ' ' = b[j0] := List.getD_eq_getElem b ' ' hlt
    have hhead : min (min (levFun a b k (j0 + 1) + 1) (levFun a b (k + 1) j0 + 1))
        (levFun a b k j0 + (if a.getD k ' ' = b[j0] then 0 else 1)) =
        levFun a b (k + 1) (j0 + 1) := by
      rw [levFun, hgdb]
    rw [hhead]
    congr 1
    exact ih (j0 + 1) (by omega) (by omega)

/-- Helper: one outer-loop iteration maps row `k` to row `k+1`. -/
theorem dpRow_spec (a b : List Char) (k : ℕ) :
    dpRow (a.getD k ' ') (k + 1) ((List.range (b.length + 1)).map (levFun a b k)) b
      = (List.range (b.length + 1)).map (levFun a b (k + 1)) := by
  rw [List.range_eq_range', List.range'_succ]
  simp only [List.map_cons]
  rw [dpRow]
  have h0 : levFun a b (k + 1) 0 = k + 1 := levFun_right_zero a b (k + 1)
  have hgo := dpGo_spec a b k b.length 0 (by omega) (by omega)
  simp only [Nat.sub_zero, List.drop_zero] at hgo
  rw [h0] at hgo ⊢
  rw [show (0 : ℕ) + 1 = 1 from rfl] at hgo ⊢
  rw [hgo]

/-- Helper: the outer DP loop carries row `k` to the final row. -/
theorem dpLoop_spec (a b : List Char) :
    ∀ (m k : ℕ), a.length - k = m → k ≤ a.length →
      dpLoop b (a.drop k) (k + 1) ((List.range (b.length + 1)).map (levFun a b k))
        = (List.range (b.length + 1)).map (levFun a b a.length) := by
  intro m
  induction m with
  | zero =>
    intro k hm hle
    have hk : k = a.length := by omega
    subst hk
    simp [dpLoop]
  | succ m ih =>
    intro k hm hle
    have hlt : k < a.length := by omega
    rw [List.drop_eq_getElem_cons hlt]
    rw [dpLoop]
    rw [show a[k] = a.getD k ' ' from (List.getD_eq_getElem a ' ' hlt).symm]
    rw [dpRow_spec a b k]
    exact ih (k + 1) (by omega) (by omega)

/-- Helper (DP correctness): the two-row dynamic program of
`levenshtein_distance` computes the classic recurrence `levFun` at the full
lengths. -/
theorem levenshtein_eq_levFun (a b : List Char) :
    levenshtein_distance a b = levFun a b a.length b.length := by
  rw [levenshtein_distance]
  by_cases hm : a.length = 0
  · rw [if_pos hm, hm, levFun]
  · rw [if_neg hm]
    by_cases hn : b.length = 0
    · rw [if_pos hn, hn, levFun_right_zero]
    · rw [if_neg hn]
      have hinit : (List.range (b.length + 1)).map (levFun a b 0) =
          List.range (b.length + 1) := by
        have h1 : (List.range (b.length + 1)).map (levFun a b 0) =
            (List.range (b.length + 1)).map id :=
          List.map_congr_left (fun x _ => by rw [levFun]; rfl)
        rw [h1, List.map_id]
      have hloop := dpLoop_spec a b a.length 0 (by omega) (by omega)
      simp only [List.drop_zero] at hloop
      rw [show (0 : ℕ) + 1 = 1 from rfl] at hloop
      rw [← hinit]
      rw [hloop]
      have hlen : b.length < ((List.range (b.length + 1)).map
          (levFun a b a.length)).length := by
        simp
      rw [List.getD_eq_getElem _ _ hlen, List.getElem_map, List.getElem_range]

/-- Helper: a string has at least as many UTF-8 bytes as characters. -/
theorem length_le_byteLen (s : List Char) : s.length ≤ byteLen s := by
  induction s with
  | nil => simp [byteLen]
  | cons c t ih =>
    simp only [byteLen, List.map_cons, List.sum_cons, List.length_cons]
    have := Char.utf8Size_pos c
    simp only [byteLen] at ih
    omega

/-- Helper: zero UTF-8 bytes means the empty string. -/
theorem byteLen_eq_zero_iff (s : List Char) : byteLen s = 0 ↔ s = [] := by
  cases s with
  | nil => simp [byteLen]
  | cons c t =>
    simp only [byteLen, List.map_cons, List.sum_cons]
    have := Char.utf8Size_pos c
    constructor
    · intro h; omega
    · intro h; exact absurd h (by simp)

/-- Helper: the distance never exceeds the larger byte length. -/
theorem levenshtein_le_max_byteLen (a b : List Char) :
    levenshtein_distance a b ≤ max (byteLen a) (byteLen b) := by
  rw [levenshtein_eq_levFun]
  exact le_trans (levFun_le_max a b a.length b.length)
    (max_le_max (length_le_byteLen a) (length_le_byteLen b))

/-- Helper: the distance vanishes exactly on equal strings. -/
theorem levenshtein_eq_zero_iff (a b : List Char) :
    levenshtein_distance a b = 0 ↔ a = b := by
  rw [levenshtein_eq_levFun]
  have h := levFun_eq_zero_iff a b a.length b.length le_rfl le_rfl
  simpa [List.take_length] using h

/-- Helper: `normalized_similarity` lies in `[0, 1]` and is `1` exactly on
equal strings. -/
theorem normalized_similarity_props (a b : List Char) :
    0 ≤ normalized_similarity a b ∧ normalized_similarity a b ≤ 1 ∧
      (normalized_similarity a b = 1 ↔ a = b) := by
  rw [normalized_similarity]
  by_cases hz : max (byteLen a) (byteLen b) = 0
  · rw [if_pos hz]
    refine ⟨by norm_num, by norm_num, iff_of_true rfl ?_⟩
    have ha : byteLen a = 0 := by omega
    have hb : byteLen b = 0 := by omega
    rw [(byteLen_eq_zero_iff a).mp ha, (byteLen_eq_zero_iff b).mp hb]
  · rw [if_neg hz]
    have hMpos : (0 : ℚ) < (max (byteLen a) (byteLen b) : ℕ) := by
      exact_mod_cast Nat.pos_of_ne_zero hz
    have hdle : ((levenshtein_distance a b : ℕ) : ℚ) ≤
        ((max (byteLen a) (byteLen b) : ℕ) : ℚ) := by
      exact_mod_cast levenshtein_le_max_byteLen a b
    have hdnn : (0 : ℚ) ≤ ((levenshtein_distance a b : ℕ) : ℚ) := by
      positivity
    refine ⟨?_, ?_, ?_⟩
    · have : ((levenshtein_distance a b : ℕ) : ℚ) /
          ((max (byteLen a) (byteLen b) : ℕ) : ℚ) ≤ 1 :=
        (div_le_one hMpos).mpr hdle
      linarith
    · have : 0 ≤ ((levenshtein_distance a b : ℕ) : ℚ) /
          ((max (byteLen a) (byteLen b) : ℕ) : ℚ) :=
        div_nonneg hdnn (le_of_lt hMpos)
      linarith
    · rw [← levenshtein_eq_zero_iff a b]
      constructor
      · intro h1
        have h2 : ((levenshtein_distance a b : ℕ) : ℚ) /
            ((max (byteLen a) (byteLen b) : ℕ) : ℚ) = 0 := by linarith
        have h3 : ((levenshtein_distance a b : ℕ) : ℚ) = 0 := by
          rcases div_eq_zero_iff.mp h2 with h | h
          · exact h
          · exact absurd h (by positivity)
        exact_mod_cast h3
      · intro h1
        rw [h1]
        norm_num

/-- C7: the fuzzy similarity used by `compare_answers` lies in `[0, 1]`,
equals 1 exactly when the lower-normalized strings are equal, and equals
`1 - levenshtein_distance(lower(a), lower(b)) / max(|a|, |b|)` (with `|·|`
the byte length `String::len` the source divides by), with similarity 1
when both lower-normalized strings are empty. -/
theorem c7_fuzzy_similarity (a b : List Char) (threshold : ℚ) :
    0 ≤ (compare_answers a b .fuzzy threshold).similarity ∧
    (compare_answers a b .fuzzy threshold).similarity ≤ 1 ∧
    ((compare_answers a b .fuzzy threshold).similarity = 1 ↔
      rustToLowercase (normalize_whitespace a) =
        rustToLowercase (normalize_whitespace b)) ∧
    (compare_answers a b .fuzzy threshold).similarity =
      (if max (byteLen (rustToLowercase (normalize_whitespace a)))
            (byteLen (rustToLowercase (normalize_whitespace b))) = 0 then 1
       else 1 - ((levenshtein_distance (rustToLowercase (normalize_whitespace a))
            (rustToLowercase (normalize_whitespace b)) : ℕ) : ℚ) /
          ((max (byteLen (rustToLowercase (normalize_whitespace a)))
            (byteLen (rustToLowercase (normalize_whitespace b))) : ℕ) : ℚ)) := by
  have hsim : (compare_answers a b .fuzzy threshold).similarity =
      normalized_similarity (rustToLowercase (normalize_whitespace a))
        (rustToLowercase (normalize_whitespace b)) := rfl
  have h := normalized_similarity_props
    (rustToLowercase (normalize_whitespace a))
    (rustToLowercase (normalize_whitespace b))
  rw [hsim]
  exact ⟨h.1, h.2.1, h.2.2, rfl⟩

/-- Helper: `linesKeepEnds` splits a text into chunks whose concatenation
is the text. -/
theorem linesKeepEnds_flatten : ∀ s : List Char, (linesKeepEnds s).flatten = s := by
  intro s
  induction s with
  | nil => simp [linesKeepEnds]
  | cons c rest ih =>
    rw [linesKeepEnds]
    by_cases hc : c = '\n'
    · rw [if_pos hc, hc]
      simp only [List.flatten_cons, ih]
      rfl
    · rw [if_neg hc]
      cases hL : linesKeepEnds rest with
      | nil =>
        rw [hL] at ih
        simp only [List.flatten_nil] at ih
        rw [← ih]
        simp
      | cons l ls =>
        rw [hL] at ih
        simp only [List.flatten_cons] at ih ⊢
        rw [List.cons_append, ih]

/-- Helper: every chunk of `linesKeepEnds` is nonempty. -/
theorem linesKeepEnds_ne_nil : ∀ s : List Char, ∀ l ∈ linesKeepEnds s, l ≠ [] := by
  intro s
  induction s with
  | nil => simp [linesKeepEnds]
  | cons c rest ih =>
    intro l hl
    rw [linesKeepEnds] at hl
    by_cases hc : c = '\n'
    · rw [if_pos hc] at hl
      rcases List.mem_cons.mp hl with h | h
      · rw [h]; simp
      · exact ih l h
    · rw [if_neg hc] at hl
      cases hL : linesKeepEnds rest with
      | nil =>
        rw [hL] at hl
        rcases List.mem_cons.mp hl with h | h
        · rw [h]; simp
        · simp at h
      | cons l0 ls =>
        rw [hL] at hl
        rcases List.mem_cons.mp hl with h | h
        · rw [h]; simp
        · exact ih l (by rw [hL]; exact List.mem_cons_of_mem _ h)

/-- Helper: characters of a chunk are characters of the text. -/
theorem mem_of_mem_linesKeepEnds {s l : List Char} {c : Char}
    (hl : l ∈ linesKeepEnds s) (hc : c ∈ l) : c ∈ s := by
  rw [← linesKeepEnds_flatten s]
  exact List.mem_flatten.mpr ⟨l, hl, hc⟩

/-- Helper: `endsNL` ignores a leading character when two or more remain. -/
theorem endsNL_cons_cons (c d : Char) (t : List Char) :
    endsNL (c :: d :: t) = endsNL (d :: t) := rfl

/-- Helper: `stripNL` keeps a leading character when two or more remain. -/
theorem stripNL_cons_cons (c d : Char) (t : List Char) :
    stripNL (c :: d :: t) = c :: stripNL (d :: t) := rfl

/-- Helper: `stripCR` keeps a leading character when two or more remain. -/
theorem stripCR_cons_cons (c d : Char) (t : List Char) :
    stripCR (c :: d :: t) = c :: stripCR (d :: t) := rfl

/-- Helper: a chunk ending in a newline is its stripped form plus the
newline. -/
theorem stripNL_append_nl (l : List Char) (h : endsNL l = true) :
    stripNL l ++ ['\n'] = l := by
  induction l with
  | nil => simp [endsNL] at h
  | cons c t ih =>
    cases t with
    | nil =>
      simp only [endsNL, decide_eq_true_eq] at h
      simp [stripNL, h]
    | cons d t' =>
      rw [endsNL_cons_cons] at h
      rw [stripNL_cons_cons, List.cons_append, ih h]

/-- Helper: a chunk not ending in a newline is unchanged by `stripNL`. -/
theorem stripNL_of_not_endsNL (l : List Char) (h : endsNL l = false) :
    stripNL l = l := by
  induction l with
  | nil => rfl
  | cons c t ih =>
    cases t with
    | nil =>
      simp only [endsNL, decide_eq_false_iff_not] at h
      simp [stripNL, h]
    | cons d t' =>
      rw [endsNL_cons_cons] at h
      rw [stripNL_cons_cons, ih h]

/-- Helper: a chunk with no carriage return is unchanged by `stripCR`. -/
theorem stripCR_of_not_mem (l : List Char) (h : '\r' ∉ l) : stripCR l = l := by
  induction l with
  | nil => rfl
  | cons c t ih =>
    cases t with
    | nil =>
      have hcc : c ≠ '\r' := fun hc => h (by rw [hc]; simp)
      simp [stripCR, hcc]
    | cons d t' =>
      rw [stripCR_cons_cons, ih (fun hm => h (List.mem_cons_of_mem _ hm))]

/-- Helper: appending a newline makes `endsNL` true. -/
theorem endsNL_concat (l : List Char) : endsNL (l ++ ['\n']) = true := by
  induction l with
  | nil => simp [endsNL]
  | cons c t ih =>
    cases t with
    | nil => rfl
    | cons d t' =>
      show endsNL (c :: d :: (t' ++ ['\n'])) = true
      rw [endsNL_cons_cons]
      exact ih

/-- Helper: when the text ends in a newline, every chunk ends in one. -/
theorem linesKeepEnds_all_endNL : ∀ s : List Char, endsNL s = true →
    ∀ l ∈ linesKeepEnds s, endsNL l = true := by
  intro s
  induction s with
  | nil => intro hs; simp [endsNL] at hs
  | cons c rest ih =>
    intro hs l hl
    rw [linesKeepEnds] at hl
    by_cases hc : c = '\n'
    · rw [if_pos hc] at hl
      rcases List.mem_cons.mp hl with h1 | h1
      · rw [h1]; simp [endsNL]
      · cases rest with
        | nil => simp [linesKeepEnds] at h1
        | cons d t =>
          exact ih (by rw [← endsNL_cons_cons c d t]; exact hs) l h1
    · rw [if_neg hc] at hl
      cases rest with
      | nil =>
        simp only [endsNL, decide_eq_true_eq] at hs
        exact absurd hs hc
      | cons d t =>
        have hrest : endsNL (d :: t) = true := by
          rw [← endsNL_cons_cons c d t]; exact hs
        cases hL : linesKeepEnds (d :: t) with
        | nil =>
          have hfl := linesKeepEnds_flatten (d :: t)
          rw [hL] at hfl
          simp at hfl
        | cons l0 ls =>
          rw [hL] at hl
          rcases List.mem_cons.mp hl with h1 | h1
          · have hl0 : l0 ∈ linesKeepEnds (d :: t) := by
              rw [hL]; exact List.mem_cons_self _ _
            have hl0ne : l0 ≠ [] := linesKeepEnds_ne_nil _ l0 hl0
            have hl0end : endsNL l0 = true := ih hrest l0 hl0
            rw [h1]
            cases l0 with
            | nil => exact absurd rfl hl0ne
            | cons e u => rw [endsNL_cons_cons]; exact hl0end
          · exact ih hrest l (by rw [hL]; exact List.mem_cons_of_mem _ h1)

/-- Helper: when the text is nonempty and does not end in a newline, the
chunks split into newline-terminated ones plus a last chunk without one. -/
theorem linesKeepEnds_split_last : ∀ s : List Char, s ≠ [] → endsNL s = false →
    ∃ init last, linesKeepEnds s = init ++ [last] ∧
      (∀ l ∈ init, endsNL l = true) ∧ endsNL last = false := by
  intro s
  induction s with
  | nil => intro hne; exact absurd rfl hne
  | cons c rest ih =>
    intro _ hs
    rw [linesKeepEnds]
    by_cases hc : c = '\n'
    · rw [if_pos hc]
      cases rest with
      | nil => rw [hc] at hs; simp [endsNL] at hs
      | cons d t =>
        have hrest : endsNL (d :: t) = false := by
          rw [← endsNL_cons_cons c d t]; exact hs
        obtain ⟨init, last, hsplit, hinit, hlast⟩ := ih (by simp) hrest
        refine ⟨['\n'] :: init, last, by rw [hsplit]; rfl, ?_, hlast⟩
        intro l hl
        rcases List.mem_cons.mp hl with h1 | h1
        · rw [h1]; simp [endsNL]
        · exact hinit l h1
    · rw [if_neg hc]
      cases rest with
      | nil =>
        refine ⟨[], [c], by simp [linesKeepEnds], by simp, ?_⟩
        simp [endsNL, hc]
      | cons d t =>
        have hrest : endsNL (d :: t) = false := by
          rw [← endsNL_cons_cons c d t]; exact hs
        obtain ⟨init, last, hsplit, hinit, hlast⟩ := ih (by simp) hrest
        cases hL : linesKeepEnds (d :: t) with
        | nil =>
          have hfl := linesKeepEnds_flatten (d :: t)
          rw [hL] at hfl
          simp at hfl
        | cons l0 ls =>
          rw [hL] at hsplit
          have hl0 : l0 ∈ linesKeepEnds (d :: t) := by
            rw [hL]; exact List.mem_cons_self _ _
          have hl0ne : l0 ≠ [] := linesKeepEnds_ne_nil _ l0 hl0
          cases init with
          | nil =>
            simp only [List.nil_append] at hsplit
            have he1 : l0 = last := (List.cons.injEq _ _ _ _).mp hsplit |>.1
            have he2 : ls = [] := (List.cons.injEq _ _ _ _).mp hsplit |>.2
            refine ⟨[], c :: l0, by rw [he1, he2]; rfl, by simp, ?_⟩
            cases l0 with
            | nil => exact absurd rfl hl0ne
            | cons e u =>
              rw [endsNL_cons_cons]
              rw [he1] at *
              exact hlast
          | cons i0 irest =>
            rw [List.cons_append] at hsplit
            have he1 : l0 = i0 := (List.cons.injEq _ _ _ _).mp hsplit |>.1
            have he2 : ls = irest ++ [last] := (List.cons.injEq _ _ _ _).mp hsplit |>.2
            refine ⟨(c :: l0) :: irest, last, by rw [he2]; rfl, ?_, hlast⟩
            intro l hl
            rcases List.mem_cons.mp hl with h1 | h1
            · have hi0end : endsNL i0 = true := hinit i0 (List.mem_cons_self _ _)
              rw [h1]
              cases l0 with
              | nil => exact absurd rfl hl0ne
              | cons e u =>
                rw [endsNL_cons_cons, he1]
                exact hi0end
            · exact hinit l (List.mem_cons_of_mem _ h1)

/-- Helper: over newline-terminated carriage-return-free chunks, the
rebuilt lines (strip then re-append `'\n'`) reproduce the chunks exactly. -/
theorem flatMap_chunks_all_nl (ins : ℕ → List Char) :
    ∀ (chunks : List (List Char)) (n : ℕ),
      (∀ l ∈ chunks, endsNL l = true ∧ '\r' ∉ l) →
      (List.enumFrom n chunks).flatMap
          (fun p => ins p.1 ++ stripCR (stripNL p.2) ++ ['\n'])
        = (List.enumFrom n chunks).flatMap (fun p => ins p.1 ++ p.2) := by
  intro chunks
  induction chunks with
  | nil => intro n _; rfl
  | cons l ls ih =>
    intro n hall
    rw [List.enumFrom_cons, List.flatMap_cons, List.flatMap_cons]
    have h1 := hall l (List.mem_cons_self _ _)
    have hstrip : stripCR (stripNL l) ++ ['\n'] = l := by
      have hnl := stripNL_append_nl l h1.1
      have hcr : '\r' ∉ stripNL l := by
        intro hm
        exact h1.2 (by rw [← hnl]; exact List.mem_append_left _ hm)
      rw [stripCR_of_not_mem _ hcr, hnl]
    have hhead : ins n ++ stripCR (stripNL l) ++ ['\n'] = ins n ++ l := by
      rw [List.append_assoc, hstrip]
    rw [hhead, ih (n + 1) (fun x hx => hall x (List.mem_cons_of_mem _ hx))]

/-- Helper: with a final chunk that lacks the newline, the rebuilt lines
reproduce the chunks followed by one extra `'\n'`. -/
theorem flatMap_chunks_last (ins : ℕ → List Char) :
    ∀ (init : List (List Char)) (last : List Char) (n : ℕ),
      (∀ l ∈ init, endsNL l = true ∧ '\r' ∉ l) →
      endsNL last = false → '\r' ∉ last →
      (List.enumFrom n (init ++ [last])).flatMap
          (fun p => ins p.1 ++ stripCR (stripNL p.2) ++ ['\n'])
        = ((List.enumFrom n (init ++ [last])).flatMap
            (fun p => ins p.1 ++ p.2)) ++ ['\n'] := by
  intro init
  induction init with
  | nil =>
    intro last n _ hlast hcr
    simp only [List.nil_append, List.enumFrom_cons, List.enumFrom_nil,
      List.flatMap_cons, List.flatMap_nil, List.append_nil]
    rw [stripNL_of_not_endsNL last hlast, stripCR_of_not_mem last hcr]
  | cons l ls ih =>
    intro last n hall hlast hcr
    rw [List.cons_append, List.enumFrom_cons, List.flatMap_cons,
      List.flatMap_cons]
    have h1 := hall l (List.mem_cons_self _ _)
    have hstrip : stripCR (stripNL l) ++ ['\n'] = l := by
      have hnl := stripNL_append_nl l h1.1
      have hcr2 : '\r' ∉ stripNL l := by
        intro hm
        exact h1.2 (by rw [← hnl]; exact List.mem_append_left _ hm)
      rw [stripCR_of_not_mem _ hcr2, hnl]
    have hhead : ins n ++ stripCR (stripNL l) ++ ['\n'] = ins n ++ l := by
      rw [List.append_assoc, hstrip]
    rw [hhead, ih last (n + 1) (fun x hx => hall x (List.mem_cons_of_mem _ hx))
      hlast hcr]
    simp [List.append_assoc]

/-- Helper: flat-mapping the second components of an enumeration is the
concatenation of the chunks. -/
theorem flatMap_enumFrom_snd :
    ∀ (chunks : List (List Char)) (n : ℕ),
      (List.enumFrom n chunks).flatMap (fun p => p.2) = chunks.flatten := by
  intro chunks
  induction chunks with
  | nil => intro n; rfl
  | cons l ls ih =>
    intro n
    rw [List.enumFrom_cons, List.flatMap_cons, List.flatten_cons, ih (n + 1)]

/-- Helper: injecting an empty assignment list reproduces the content. -/
theorem specInjectIds_nil (content : List Char) :
    specInjectIds content [] = content := by
  show (List.enumFrom 0 (linesKeepEnds content)).flatMap (fun p => p.2) = content
  rw [flatMap_enumFrom_snd, linesKeepEnds_flatten]

/-- Helper: for carriage-return-free content, rebuilding the stripped lines
with a terminating `'\n'` each and then dropping the extra final `'\n'`
(when the content had none) reproduces the chunks with their original
endings. -/
theorem regen_flatMap_eq (content : List Char) (ins : ℕ → List Char)
    (h : '\r' ∉ content) :
    (if ((!endsNL content) &&
          endsNL ((rustLines content).enum.flatMap
            fun p => ins p.1 ++ p.2 ++ ['\n'])) then
        ((rustLines content).enum.flatMap
          fun p => ins p.1 ++ p.2 ++ ['\n']).dropLast
      else (rustLines content).enum.flatMap fun p => ins p.1 ++ p.2 ++ ['\n'])
    = (linesKeepEnds content).enum.flatMap (fun p => ins p.1 ++ p.2) := by
  have hres : ((rustLines content).enum.flatMap
      fun p => ins p.1 ++ p.2 ++ ['\n'])
      = (List.enumFrom 0 (linesKeepEnds content)).flatMap
          (fun p => ins p.1 ++ stripCR (stripNL p.2) ++ ['\n']) := by
    rw [rustLines, List.enum_map]
    show (List.map (Prod.map id fun l => stripCR (stripNL l))
        (List.enumFrom 0 (linesKeepEnds content))).flatMap
        (fun p => ins p.1 ++ p.2 ++ ['\n']) = _
    rw [List.flatMap_map]
    rfl
  rw [hres]
  show _ = (List.enumFrom 0 (linesKeepEnds content)).flatMap
    (fun p => ins p.1 ++ p.2)
  by_cases hempty : content = []
  · subst hempty
    rfl
  · by_cases hnl : endsNL content = true
    · have hall : ∀ l ∈ linesKeepEnds content, endsNL l = true ∧ '\r' ∉ l :=
        fun l hl => ⟨linesKeepEnds_all_endNL content hnl l hl,
          fun hc => h (mem_of_mem_linesKeepEnds hl hc)⟩
      rw [flatMap_chunks_all_nl ins (linesKeepEnds content) 0 hall]
      rw [hnl]
      simp
    · have hnl' : endsNL content = false := by simpa using hnl
      obtain ⟨init, last, hsplit, hinit, hlast⟩ :=
        linesKeepEnds_split_last content hempty hnl'
      rw [hsplit]
      have hallinit : ∀ l ∈ init, endsNL l = true ∧ '\r' ∉ l := fun l hl =>
        ⟨hinit l hl, fun hc => h (mem_of_mem_linesKeepEnds
          (by rw [hsplit]; exact List.mem_append_left _ hl) hc)⟩
      have hcrlast : '\r' ∉ last := fun hc =>
        h (mem_of_mem_linesKeepEnds
          (by rw [hsplit]; exact List.mem_append_right _ (by simp)) hc)
      rw [flatMap_chunks_last ins init last 0 hallinit hlast hcrlast]
      rw [hnl', endsNL_concat]
      simp only [Bool.not_false, Bool.true_and, if_true]
      exact List.dropLast_concat

/-- C4 counterexample: the claim says ID injection preserves every other
byte of the content, but the CORE `inject_ids` joins the lines with `'\n'`
and therefore drops a trailing newline: on `"Q: a\nA: b\n"` with the
mapping `{1 ↦ 7}` it returns `"ID: 7\nQ: a\nA: b"`, while the spec's
byte-preserving output (`specInjectIds`, which the backend
`regenerate_md_with_ids` does produce) ends in the original `'\n'`. -/
theorem c4_core_inject_drops_trailing_newline :
    Core.inject_ids ("Q: a\nA: b\n".toList) [(1, 7)] =
      ("ID: 7\nQ: a\nA: b".toList) ∧
    specInjectIds ("Q: a\nA: b\n".toList) [(1, 7)] =
      ("ID: 7\nQ: a\nA: b\n".toList) ∧
    Core.inject_ids ("Q: a\nA: b\n".toList) [(1, 7)] ≠
      specInjectIds ("Q: a\nA: b\n".toList) [(1, 7)] := by
  refine ⟨rfl, rfl, ?_⟩
  intro hcontra
  have h1 : ("ID: 7\nQ: a\nA: b".toList : List Char) =
      ("ID: 7\nQ: a\nA: b\n".toList) := hcontra
  exact absurd h1 (by decide)

/-- C4 (amended): for every carriage-return-free content and every
assignment list, the backend `regenerate_md_with_ids` emits exactly the
spec text: a line `ID: <id>` plus newline inserted immediately before each
mapped original line, all other bytes preserved, hence a trailing newline
exactly when the input has one. -/
theorem c4_regenerate_matches_spec (content : List Char)
    (newIds : List (ℕ × ℤ)) (h : '\r' ∉ content) :
    Backend.regenerate_md_with_ids content newIds =
      specInjectIds content newIds := by
  by_cases hids : newIds.isEmpty
  · rw [Backend.regenerate_md_with_ids, if_pos hids]
    rw [List.isEmpty_iff.mp hids]
    exact (specInjectIds_nil content).symm
  · rw [Backend.regenerate_md_with_ids, if_neg hids]
    exact regen_flatMap_eq content
      (fun k =>
        match lookupLast newIds (k + 1) with
        | some id => ("ID: ".toList) ++ reprI64 id ++ ['\n']
        | none => []) h

/-- Witness for C4: the concrete injection of id 7 before line 1 of
`"Q: a\nA: b"` (no carriage returns). -/
theorem c4_regenerate_matches_spec_witness :
    ('\r' ∉ ("Q: a\nA: b".toList)) ∧
    Backend.regenerate_md_with_ids ("Q: a\nA: b".toList) [(1, 7)] =
      specInjectIds ("Q: a\nA: b".toList) [(1, 7)] :=
  ⟨by decide, c4_regenerate_matches_spec ("Q: a\nA: b".toList) [(1, 7)]
    (by decide)⟩
